import Mathlib

/-!
Verification of the yolojunk waste-classification frontend
(`src/frontend/components/UploadCard.tsx`) against its specification.

The embedding translates the TypeScript source into Lean:
numbers become exact rationals, JS `Math.round` becomes `jsRound`,
strings become Lean strings, and the stateful drawing code is reduced
to the pure numeric computations it performs.
-/

/-- The dash-family separator characters of the regex `[-－—]+` on
line 23 of UploadCard.tsx: ASCII hyphen U+002D, fullwidth hyphen
U+FF0D, em-dash U+2014. -/
def isSepChar (c : Char) : Bool :=
  c == '-' || c == '－' || c == '—'

/-- JavaScript `String.prototype.trim` whitespace: ECMAScript WhiteSpace
and LineTerminator code points (TAB, LF, VT, FF, CR, SP, NBSP, ZWNBSP,
Ogham space, the U+2000..U+200A range, LS, PS, NNBSP, MMSP, ideographic
space). -/
def isWsChar (c : Char) : Bool :=
  let n := c.toNat
  n == 0x9 || n == 0xA || n == 0xB || n == 0xC || n == 0xD || n == 0x20 ||
  n == 0xA0 || n == 0xFEFF || n == 0x1680 ||
  (0x2000 ≤ n && n ≤ 0x200A) || n == 0x2028 || n == 0x2029 ||
  n == 0x202F || n == 0x205F || n == 0x3000

/-- Drop trailing whitespace characters from a character list
(the right half of JS `trim`). -/
def dropTrailingWs : List Char → List Char
  | [] => []
  | a :: rest =>
    let r := dropTrailingWs rest
    if r.isEmpty && isWsChar a then [] else a :: r

/-- JS `trim` on character lists: drop leading and trailing whitespace. -/
def trimChars (l : List Char) : List Char :=
  dropTrailingWs (l.dropWhile isWsChar)

/-- State-machine core of JS `split(/[-－—]+/)`: `cur` is the current
segment accumulated in reverse, `inSep` records that we are inside a
run of separators (the `+` collapses the run into a single cut). -/
def splitSepsGo : List Char → List Char → Bool → List (List Char)
  | [], cur, inSep => if inSep then [cur.reverse, []] else [cur.reverse]
  | c :: rest, cur, inSep =>
    if isSepChar c then splitSepsGo rest cur true
    else if inSep then cur.reverse :: splitSepsGo rest [c] false
    else splitSepsGo rest (c :: cur) false

/-- JS `name.split(/[-－—]+/)` on character lists. A leading separator
yields a leading empty segment and a trailing separator a trailing
empty segment, exactly as in JavaScript. -/
def splitSeps (l : List Char) : List (List Char) :=
  splitSepsGo l [] false

/-- `(name?.split(/[-－—]+/)[0] ?? '').trim()` from UploadCard.tsx
line 23.  `name` is a non-nullable string, so the optional chaining and
`?? ''` are inert; `[0]` of a JS split is always present. -/
def rootHead (name : String) : String :=
  String.mk (trimChars ((splitSeps name.toList).headD []))

/-- `extractRootCategory` from UploadCard.tsx lines 22-27: take the
trimmed first dash-separated segment, fold the alternate spellings
其它垃圾/其余垃圾 of other-waste to 其他垃圾 and the short form 可回收
to 可回收物, and fall back to the whole label when the head is empty
(`return head || name`). -/
def extractRootCategory (name : String) : String :=
  let head := rootHead name
  if head = "其它垃圾" ∨ head = "其余垃圾" then "其他垃圾"
  else if head = "可回收" then "可回收物"
  else if head = "" then name
  else head

/-- The closed set of four macro-category keys
(spec section 3, `majorBadgeClass` in UploadCard.tsx lines 164-172). -/
def canonicalCategories : List String :=
  ["可回收物", "有害垃圾", "厨余垃圾", "其他垃圾"]

/-- The normalizer as worded by the spec (section 4.1 and claim C2):
split on any dash-family separator, take the first segment (the maximal
separator-free prefix of the label) trimmed of surrounding whitespace,
fold the two alternate spellings of other-waste and the short
recyclable form to their canonical keys, and fall back to the full
original label when the head is empty.  Stated independently of
the source function so the two can be compared. -/
def normalizeSpec (name : String) : String :=
  let head := String.mk (trimChars (name.toList.takeWhile (fun c => !isSepChar c)))
  if head = "其它垃圾" ∨ head = "其余垃圾" then "其他垃圾"
  else if head = "可回收" then "可回收物"
  else if head = "" then name
  else head

example : extractRootCategory "可回收物-饮料瓶" = "可回收物" := by decide
example : extractRootCategory "其它垃圾-烟蒂" = "其他垃圾" := by decide
example : extractRootCategory "可回收—瓶子" = "可回收物" := by decide
example : extractRootCategory "banana" = "banana" := by decide
example : extractRootCategory "-x" = "-x" := by decide
example : extractRootCategory "" = "" := by decide
example : extractRootCategory " 其余垃圾 － 灰土" = "其他垃圾" := by decide

/-- The `Detection` record of UploadCard.tsx lines 4-12 (the optional
backend extension fields `root`/`is_recyclable` are never read by the
functions verified here and are omitted). -/
structure Detection where
  class_id : Int
  class_name : String
  confidence : ℚ
  bbox : List ℚ

/-- `Array.from(new Set(roots))` from UploadCard.tsx line 149: a JS `Set`
iterates in insertion order, so this is first-occurrence deduplication.
`seen` is the set of already-emitted elements. -/
def dedupFirstGo (seen : List String) : List String → List String
  | [] => []
  | x :: xs =>
    if x ∈ seen then dedupFirstGo seen xs
    else x :: dedupFirstGo (x :: seen) xs

/-- First-occurrence deduplication, the order `Array.from(new Set(·))`
produces. -/
def dedupFirst (l : List String) : List String :=
  dedupFirstGo [] l

/-- `sums.set(r, (sums.get(r) ?? 0) + v)` from UploadCard.tsx line 154:
a JS `Map.set` updates an existing key in place (keeping its insertion
position) and appends a missing key at the end. -/
def addToSums : List (String × ℚ) → String → ℚ → List (String × ℚ)
  | [], k, v => [(k, v)]
  | (k₁, v₁) :: rest, k, v =>
    if k₁ = k then (k₁, v₁ + v) :: rest
    else (k₁, v₁) :: addToSums rest k v

/-- `sums.get(k) ?? 0`: the value stored at the first occurrence of the
key, defaulting to 0. -/
def lookupScore : List (String × ℚ) → String → ℚ
  | [], _ => 0
  | (k₁, v₁) :: rest, k => if k₁ = k then v₁ else lookupScore rest k

/-- The `for` loop of UploadCard.tsx lines 152-155 building the per-root
confidence sums, in detection order.  JS `confidence || 0` only replaces
a falsy number (0 or NaN) by 0, which is the identity on rationals. -/
def buildSumsGo (acc : List (String × ℚ)) : List Detection → List (String × ℚ)
  | [] => acc
  | d :: rest =>
    buildSumsGo (addToSums acc (extractRootCategory d.class_name) d.confidence) rest

/-- The root→summed-confidence `Map` after the loop of lines 151-155. -/
def buildSums (dets : List Detection) : List (String × ℚ) :=
  buildSumsGo [] dets

/-- The `for (const [k, v] of sums)` loop of UploadCard.tsx lines 156-160:
starting from `best = null`, `bestScore = -1`, keep the first entry that
strictly exceeds the running best (iteration order = Map insertion
order). -/
def pickBestGo (acc : Option String × ℚ) : List (String × ℚ) → Option String × ℚ
  | [] => acc
  | kv :: rest =>
    pickBestGo (if kv.2 > acc.2 then (some kv.1, kv.2) else acc) rest

/-- The best (category, score) pair selected by the loop. -/
def pickBest (sums : List (String × ℚ)) : Option String × ℚ :=
  pickBestGo (none, -1) sums

/-- `deriveMajor` from UploadCard.tsx lines 146-162: null on an empty
list, the unique root if all detections share one, otherwise the first
strict-maximum entry of the insertion-ordered sums map. -/
def deriveMajor (dets : List Detection) : Option String :=
  if dets.isEmpty then none
  else
    let roots := dets.map fun d => extractRootCategory d.class_name
    let uniq := dedupFirst roots
    if uniq.length = 1 then uniq.head?
    else (pickBest (buildSums dets)).1

/-- The aggregated confidence a list of detections gives to a category:
the sum of the confidences of the detections whose normalized root is
that category. -/
def categoryScore : List Detection → String → ℚ
  | [], _ => 0
  | d :: rest, c =>
    (if extractRootCategory d.class_name = c then d.confidence else 0) +
      categoryScore rest c

/-- An aggregation result (spec section 3): the four per-category
scores, the selected major category and the recyclable flag. -/
structure AggregationResult where
  scoresByCategory : List (String × ℚ)
  majorCategory : Option String
  isRecyclable : Bool
deriving DecidableEq

/-- Modelled from the spec (section 4.2): discard any observation
whose score is below `minProb`. -/
def filterMinProb (minProb : ℚ) : List (String × ℚ) → List (String × ℚ)
  | [] => []
  | o :: rest =>
    if minProb ≤ o.2 then o :: filterMinProb minProb rest
    else filterMinProb minProb rest

/-- Modelled from the spec (section 4.2, `sum-all`): the total score a
category receives — the sum of the scores of the observations whose
normalized label is that category. -/
def obsScore : List (String × ℚ) → String → ℚ
  | [], _ => 0
  | o :: rest, c =>
    (if extractRootCategory o.1 = c then o.2 else 0) + obsScore rest c

/-- Modelled from the spec: the backend aggregation engine
(`backend/app.py`) is not under src/, so the `sum-all` strategy of spec
section 4.2 is modelled from the spec's words: discard observations
scoring below `minProb` (default 0), add each remaining observation's
score to the bucket of its normalized macro-category, emit all four
categories (absent ones score 0), pick the strictly greatest score with
ties broken by the fixed priority order recyclable > hazardous-waste >
kitchen-waste > other-waste (the first strict maximum over
`canonicalCategories` in priority order), null major on an empty (or
fully filtered) list, and `isRecyclable` iff the major category is the
recyclable key.  The normalizer is the repository's
`extractRootCategory`. -/
def aggregateSumAll (minProb : ℚ) (obs : List (String × ℚ)) : AggregationResult :=
  let kept := filterMinProb minProb obs
  let major :=
    if kept.isEmpty then none
    else (pickBestGo (none, -1) (canonicalCategories.map fun c => (c, obsScore kept c))).1
  { scoresByCategory := canonicalCategories.map fun c => (c, obsScore kept c)
    majorCategory := major
    isRecyclable := major == some "可回收物" }

/-- Concrete normalizer evaluation used to evaluate the aggregation
functions on sample labels (rational arithmetic blocks kernel
reduction, so these string-only facts are proved separately). -/
theorem ercRecyclableBottle : extractRootCategory "可回收物-瓶子" = "可回收物" := by decide

theorem ercOtherTissue : extractRootCategory "其他垃圾-纸巾" = "其他垃圾" := by decide

theorem ercHazardBattery : extractRootCategory "有害垃圾-电池" = "有害垃圾" := by decide

theorem ercKitchenBanana : extractRootCategory "厨余垃圾-香蕉" = "厨余垃圾" := by decide

theorem ercBottleFirst : extractRootCategory "瓶子-可回收物" = "瓶子" := by decide

theorem ercTissueFirst : extractRootCategory "纸巾-其他垃圾" = "纸巾" := by decide

/-- The four canonical category keys are pairwise distinct (used to
reduce the string comparisons arising in concrete aggregations). -/
theorem categoriesPairwiseNe :
    ("可回收物" : String) ≠ "有害垃圾" ∧ ("可回收物" : String) ≠ "厨余垃圾" ∧
    ("可回收物" : String) ≠ "其他垃圾" ∧ ("有害垃圾" : String) ≠ "可回收物" ∧
    ("有害垃圾" : String) ≠ "厨余垃圾" ∧ ("有害垃圾" : String) ≠ "其他垃圾" ∧
    ("厨余垃圾" : String) ≠ "可回收物" ∧ ("厨余垃圾" : String) ≠ "有害垃圾" ∧
    ("厨余垃圾" : String) ≠ "其他垃圾" ∧ ("其他垃圾" : String) ≠ "可回收物" ∧
    ("其他垃圾" : String) ≠ "有害垃圾" ∧ ("其他垃圾" : String) ≠ "厨余垃圾" := by decide

example :
    deriveMajor [⟨0, "可回收物-瓶子", 9/10, []⟩, ⟨1, "其他垃圾-纸巾", 3/10, []⟩]
      = some "可回收物" := by
  norm_num [deriveMajor, dedupFirst, dedupFirstGo, buildSums, buildSumsGo, addToSums,
    pickBest, pickBestGo, ercRecyclableBottle, ercOtherTissue]
example :
    deriveMajor [⟨0, "瓶子-可回收物", 9/10, []⟩, ⟨1, "纸巾-其他垃圾", 3/10, []⟩]
      = some "瓶子" := by
  norm_num [deriveMajor, dedupFirst, dedupFirstGo, buildSums, buildSumsGo, addToSums,
    pickBest, pickBestGo, ercBottleFirst, ercTissueFirst]
example : deriveMajor [] = none := by decide
example :
    deriveMajor [⟨0, "其他垃圾-纸巾", 1/2, []⟩, ⟨1, "有害垃圾-电池", 1/2, []⟩]
      = some "其他垃圾" := by
  norm_num [deriveMajor, dedupFirst, dedupFirstGo, buildSums, buildSumsGo, addToSums,
    pickBest, pickBestGo, ercOtherTissue, ercHazardBattery]
example :
    deriveMajor [⟨1, "有害垃圾-电池", 1/2, []⟩, ⟨0, "其他垃圾-纸巾", 1/2, []⟩]
      = some "有害垃圾" := by
  norm_num [deriveMajor, dedupFirst, dedupFirstGo, buildSums, buildSumsGo, addToSums,
    pickBest, pickBestGo, ercOtherTissue, ercHazardBattery]
example :
    aggregateSumAll 0 [("可回收物-瓶子", 9/10), ("其他垃圾-纸巾", 3/10)] =
      { scoresByCategory :=
          [("可回收物", 9/10), ("有害垃圾", 0), ("厨余垃圾", 0), ("其他垃圾", 3/10)]
        majorCategory := some "可回收物"
        isRecyclable := true } := by
  norm_num [aggregateSumAll, filterMinProb, obsScore, pickBestGo, canonicalCategories,
    ercRecyclableBottle, ercOtherTissue, categoriesPairwiseNe]
example :
    aggregateSumAll 0 [] =
      { scoresByCategory :=
          [("可回收物", 0), ("有害垃圾", 0), ("厨余垃圾", 0), ("其他垃圾", 0)]
        majorCategory := none
        isRecyclable := false } := by
  norm_num [aggregateSumAll, filterMinProb, obsScore, pickBestGo, canonicalCategories]

/-- JavaScript `Math.round`: round half toward positive infinity. -/
def jsRound (x : ℚ) : ℤ := ⌊x + 1/2⌋

/-- `Math.min(1, maxWidth / img.naturalWidth)` from UploadCard.tsx
line 30.  For `W = 0`, IEEE division gives `maxW / 0 = +∞` (all call
sites pass `maxW ≥ 1`), so `Math.min(1, ·)` clamps the ratio to 1;
the branch makes that explicit since rational division by zero would
otherwise yield 0. -/
def resizeRatio (maxW W : ℚ) : ℚ :=
  if W = 0 then 1 else min 1 (maxW / W)

/-- `resizeImageCanvas` from UploadCard.tsx lines 29-38, reduced to the
dimensions it computes: `(Math.round(W * ratio), Math.round(H * ratio))`. -/
def resizeImageCanvas (W H maxW : ℚ) : ℤ × ℤ :=
  (jsRound (W * resizeRatio maxW W), jsRound (H * resizeRatio maxW W))

/-- `const scaleX = tmp.width / img.naturalWidth` from UploadCard.tsx
line 105: the x-axis box scale actually applied. -/
def scaleX (W H maxW : ℚ) : ℚ :=
  ((resizeImageCanvas W H maxW).1 : ℚ) / W

/-- `const scaleY = tmp.height / img.naturalHeight` from UploadCard.tsx
line 106: the y-axis box scale actually applied. -/
def scaleY (W H maxW : ℚ) : ℚ :=
  ((resizeImageCanvas W H maxW).2 : ℚ) / H

/-- A box coordinate mapped to display space, UploadCard.tsx
lines 109-112: `Math.round(x * scale)` — rounding happens at the
display stage. -/
def toDisplayCoord (s x : ℚ) : ℤ :=
  jsRound (x * s)

/-- The device-space position of a drawn coordinate: the canvas context
is scaled by `ctx.setTransform(dpr, 0, 0, dpr, 0, 0)` (UploadCard.tsx
line 47), so a display coordinate lands at exactly `dpr` times its
value in backing-store pixels. -/
def toDeviceCoord (s dpr x : ℚ) : ℚ :=
  (toDisplayCoord s x : ℚ) * dpr

/-- Modelled from the spec: the inverse mapping device → source of
spec section 4.3 (no inverse exists in the source); the exact inverse
of the two scale stages is division by `s * dpr`. -/
def fromDeviceCoord (s dpr d : ℚ) : ℚ :=
  d / (s * dpr)

/-- `drawHighDPRCanvas` from UploadCard.tsx lines 40-49, reduced to the
backing-store surface dimensions it sets:
`(Math.round(width * dpr), Math.round(height * dpr))`. -/
def drawHighDPRCanvas (cssW cssH dpr : ℚ) : ℤ × ℤ :=
  (jsRound (cssW * dpr), jsRound (cssH * dpr))

/-- The stroke width set on UploadCard.tsx line 102:
`Math.max(2, Math.round(Math.min(canvas.width, canvas.height) /
(window.devicePixelRatio * 200)))`, taking the backing-store surface
dimensions as arguments. -/
def strokeLineWidth (surfW surfH : ℤ) (dpr : ℚ) : ℤ :=
  max 2 (jsRound (((min surfW surfH : ℤ) : ℚ) / (dpr * 200)))

example : resizeImageCanvas 3 5 2 = (2, 3) := by
  norm_num [resizeImageCanvas, resizeRatio, jsRound, Int.floor_eq_iff]
example : scaleX 3 5 2 = 2/3 ∧ scaleY 3 5 2 = 3/5 := by
  norm_num [scaleX, scaleY, resizeImageCanvas, resizeRatio, jsRound, Int.floor_eq_iff]
example : resizeImageCanvas 0 480 640 = (0, 480) := by
  norm_num [resizeImageCanvas, resizeRatio, jsRound, Int.floor_eq_iff]
example : strokeLineWidth 640 480 1 = 2 := by
  norm_num [strokeLineWidth, jsRound, Int.floor_eq_iff]
example : toDeviceCoord (1/2) 3 1 = 3 ∧ fromDeviceCoord (1/2) 3 3 = 2 := by
  norm_num [toDeviceCoord, fromDeviceCoord, toDisplayCoord, jsRound, Int.floor_eq_iff]

/-! ### Helper lemmas about the split and trim primitives -/

/-- The first segment of the JS split is the maximal separator-free
prefix of the input, whatever the machine state. -/
theorem splitSepsGo_headD (l : List Char) : ∀ (cur : List Char) (inSep : Bool),
    (splitSepsGo l cur inSep).headD [] =
      if inSep then cur.reverse
      else cur.reverse ++ l.takeWhile (fun c => !isSepChar c) := by
  induction l with
  | nil =>
    intro cur inSep
    cases inSep <;> simp [splitSepsGo]
  | cons c rest ih =>
    intro cur inSep
    by_cases hs : isSepChar c
    · have h1 : splitSepsGo (c :: rest) cur inSep = splitSepsGo rest cur true := by
        simp [splitSepsGo, hs]
      rw [h1, ih]
      cases inSep <;> simp [hs, List.takeWhile_cons]
    · cases inSep with
      | true =>
        have h1 : splitSepsGo (c :: rest) cur true = cur.reverse :: splitSepsGo rest [c] false := by
          simp [splitSepsGo, hs]
        rw [h1]
        simp
      | false =>
        have h1 : splitSepsGo (c :: rest) cur false = splitSepsGo rest (c :: cur) false := by
          simp [splitSepsGo, hs]
        rw [h1, ih]
        simp [hs, List.takeWhile_cons]

/-- The head the normalizer works on is the trimmed maximal
separator-free prefix of the label. -/
theorem rootHead_eq_takeWhile (name : String) :
    rootHead name =
      String.mk (trimChars (name.toList.takeWhile (fun c => !isSepChar c))) := by
  unfold rootHead splitSeps
  rw [splitSepsGo_headD]
  simp

/-- Dropping trailing whitespace twice is the same as dropping it
once. -/
theorem dropTrailingWs_idem (l : List Char) :
    dropTrailingWs (dropTrailingWs l) = dropTrailingWs l := by
  induction l with
  | nil => simp [dropTrailingWs]
  | cons a rest ih =>
    simp only [dropTrailingWs]
    by_cases h : (dropTrailingWs rest).isEmpty = true ∧ isWsChar a = true
    · simp [h]
      simp [dropTrailingWs]
    · rw [if_neg (by simpa using h)]
      simp only [dropTrailingWs, ih]
      rw [if_neg (by simpa using h)]

/-- The head of a `dropWhile` result does not satisfy the predicate. -/
theorem dropWhile_head_false (p : Char → Bool) (l : List Char) :
    ∀ a t, l.dropWhile p = a :: t → p a = false := by
  induction l with
  | nil => intro a t h; simp [List.dropWhile] at h
  | cons c rest ih =>
    intro a t h
    by_cases hc : p c
    · rw [List.dropWhile_cons_of_pos hc] at h
      exact ih a t h
    · rw [List.dropWhile_cons_of_neg hc] at h
      cases h
      simpa using hc

/-- `dropTrailingWs` returns either the empty list or a list with the
same head as its input. -/
theorem dropTrailingWs_head (l : List Char) :
    dropTrailingWs l = [] ∨ (dropTrailingWs l).head? = l.head? := by
  cases l with
  | nil => left; simp [dropTrailingWs]
  | cons a rest =>
    simp only [dropTrailingWs]
    by_cases h : (dropTrailingWs rest).isEmpty = true ∧ isWsChar a = true
    · left; simp [h]
    · right; rw [if_neg (by simpa using h)]; simp

/-- Trimming is idempotent, as for JS `trim`. -/
theorem trimChars_idem (l : List Char) :
    trimChars (trimChars l) = trimChars l := by
  unfold trimChars
  have hdw : (dropTrailingWs (List.dropWhile isWsChar l)).dropWhile isWsChar =
      dropTrailingWs (List.dropWhile isWsChar l) := by
    rcases dropTrailingWs_head (List.dropWhile isWsChar l) with h | h
    · simp [h]
    · cases hm : dropTrailingWs (List.dropWhile isWsChar l) with
      | nil => simp
      | cons b t =>
        rw [hm] at h
        have hb : isWsChar b = false := by
          cases hl : List.dropWhile isWsChar l with
          | nil => rw [hl] at hm; simp [dropTrailingWs] at hm
          | cons c r =>
            rw [hl] at h
            have hbc : b = c := by simpa using h
            rw [hbc]
            exact dropWhile_head_false isWsChar l c r hl
        exact List.dropWhile_cons_of_neg (by simp [hb])
  rw [hdw, dropTrailingWs_idem]

/-- Every character surviving `dropTrailingWs` occurs in the input. -/
theorem mem_of_mem_dropTrailingWs (x : Char) (l : List Char) :
    x ∈ dropTrailingWs l → x ∈ l := by
  induction l with
  | nil => simp [dropTrailingWs]
  | cons a rest ih =>
    simp only [dropTrailingWs]
    by_cases h : (dropTrailingWs rest).isEmpty = true ∧ isWsChar a = true
    · simp [h]
    · rw [if_neg (by simpa using h)]
      intro hx
      rcases List.mem_cons.1 hx with rfl | hx
      · exact List.mem_cons_self x rest
      · exact List.mem_cons_of_mem a (ih hx)

/-- Every character surviving `dropWhile` occurs in the input. -/
theorem mem_of_mem_dropWhileChars (p : Char → Bool) (x : Char) (l : List Char) :
    x ∈ l.dropWhile p → x ∈ l := by
  induction l with
  | nil => simp
  | cons a rest ih =>
    by_cases h : p a
    · rw [List.dropWhile_cons_of_pos h]
      intro hx
      exact List.mem_cons_of_mem a (ih hx)
    · rw [List.dropWhile_cons_of_neg h]
      exact fun hx => hx

/-- Every character of a `takeWhile` result satisfies the predicate. -/
theorem pred_of_mem_takeWhile (p : Char → Bool) (x : Char) (l : List Char) :
    x ∈ l.takeWhile p → p x = true := by
  induction l with
  | nil => simp
  | cons a rest ih =>
    by_cases h : p a
    · rw [List.takeWhile_cons_of_pos h]
      intro hx
      rcases List.mem_cons.1 hx with rfl | hx
      · exact h
      · exact ih hx
    · rw [List.takeWhile_cons_of_neg h]
      simp

/-- Every character surviving a trim occurs in the input. -/
theorem mem_of_mem_trimChars (x : Char) (l : List Char) :
    x ∈ trimChars l → x ∈ l := by
  intro hx
  exact mem_of_mem_dropWhileChars isWsChar x l (mem_of_mem_dropTrailingWs x _ hx)

/-- `takeWhile` is the identity on lists all of whose elements satisfy
the predicate. -/
theorem takeWhile_eq_self_of_all (p : Char → Bool) (l : List Char)
    (h : ∀ x ∈ l, p x = true) : l.takeWhile p = l := by
  induction l with
  | nil => simp
  | cons a rest ih =>
    rw [List.takeWhile_cons_of_pos (h a (List.mem_cons_self a rest))]
    rw [ih fun x hx => h x (List.mem_cons_of_mem a hx)]

/-- Exhaustive case analysis of the normalizer: it returns the
canonical other-waste key, the canonical recyclable key, the original
label (empty head), or the head itself (with the branch conditions that
led there). -/
theorem extractRootCategory_cases (name : String) :
    extractRootCategory name = "其他垃圾" ∨ extractRootCategory name = "可回收物" ∨
    (rootHead name = "" ∧ extractRootCategory name = name) ∨
    (rootHead name ≠ "其它垃圾" ∧ rootHead name ≠ "其余垃圾" ∧
      rootHead name ≠ "可回收" ∧ rootHead name ≠ "" ∧
      extractRootCategory name = rootHead name) := by
  simp only [extractRootCategory]
  by_cases h1 : rootHead name = "其它垃圾" ∨ rootHead name = "其余垃圾"
  · left; simp [h1]
  · by_cases h2 : rootHead name = "可回收"
    · right; left; simp [h1, h2]
    · by_cases h3 : rootHead name = ""
      · right; right; left
        refine ⟨h3, ?_⟩
        simp [h1, h2, h3]
      · right; right; right
        push_neg at h1
        refine ⟨h1.1, h1.2, h2, h3, ?_⟩
        simp [h1, h2, h3]

/-- When none of the alias or empty-head branches fire, the normalizer
returns the head unchanged. -/
theorem erc_eq_rootHead (name : String) (h1 : rootHead name ≠ "其它垃圾")
    (h2 : rootHead name ≠ "其余垃圾") (h3 : rootHead name ≠ "可回收")
    (h4 : rootHead name ≠ "") : extractRootCategory name = rootHead name := by
  simp only [extractRootCategory]
  rw [if_neg (by tauto), if_neg h3, if_neg h4]

/-- The trimmed head computed by the normalizer is itself separator-free
and trimmed, so recomputing the head on it changes nothing. -/
theorem rootHead_rootHead (name : String) :
    rootHead (rootHead name) = rootHead name := by
  rw [rootHead_eq_takeWhile name, rootHead_eq_takeWhile]
  have htl : (String.mk (trimChars (name.toList.takeWhile (fun c => !isSepChar c)))).toList
      = trimChars (name.toList.takeWhile (fun c => !isSepChar c)) := rfl
  rw [htl]
  have hall : ∀ x ∈ trimChars (name.toList.takeWhile (fun c => !isSepChar c)),
      (!isSepChar x) = true := by
    intro x hx
    exact pred_of_mem_takeWhile (fun c => !isSepChar c) x name.toList
      (mem_of_mem_trimChars x _ hx)
  rw [takeWhile_eq_self_of_all _ _ hall, trimChars_idem]

/-! ### Claim theorems: the label normalizer (C1, C2, C10) -/

/-- C1 counterexample: the label "banana" is normalized to "banana"
itself — a fifth string outside the closed four-key set — and no
`UnknownCategoryError` is raised anywhere (`extractRootCategory` is a
total function with no error path), refuting the claim that every label
maps into the four canonical keys or raises. -/
theorem c1_fifth_string_counterexample :
    extractRootCategory "banana" = "banana" ∧ "banana" ∉ canonicalCategories := by
  decide

/-- C1 (amended): for every label string, `extractRootCategory` either
returns one of the four canonical macro-category keys or passes the
label through unchanged — as the trimmed head of the label, or as the
whole label when the head is empty.  It never raises: out-of-set heads
are silently returned, and the closed-set guarantee is left to the
caller. -/
theorem c1_normalizer_range (name : String) :
    extractRootCategory name ∈ canonicalCategories ∨
    extractRootCategory name = rootHead name ∨
    extractRootCategory name = name := by
  rcases extractRootCategory_cases name with h | h | ⟨h0, h⟩ | ⟨h1, h2, h3, h4, h⟩
  · left; rw [h]; decide
  · left; rw [h]; decide
  · right; right; exact h
  · right; left; exact h

/-- C2 (confirmed): `extractRootCategory` implements exactly the
algorithm the spec describes — split the raw label on any dash-family
separator (ASCII hyphen, fullwidth hyphen, em-dash), take the first
segment (the maximal separator-free prefix) trimmed of surrounding
whitespace, fold 其它垃圾/其余垃圾 to 其他垃圾 and 可回收 to 可回收物,
and fall back to the full original label when the head is empty. -/
theorem c2_normalize_algorithm (name : String) :
    extractRootCategory name = normalizeSpec name := by
  simp only [extractRootCategory, normalizeSpec, rootHead_eq_takeWhile]

/-- C10 (confirmed): the normalizer is idempotent — applying
`extractRootCategory` twice gives the same result as applying it
once, for every input string. -/
theorem c10_normalize_idempotent (name : String) :
    extractRootCategory (extractRootCategory name) = extractRootCategory name := by
  rcases extractRootCategory_cases name with h | h | ⟨h0, h⟩ | ⟨h1, h2, h3, h4, h⟩
  · rw [h]; decide
  · rw [h]; decide
  · rw [h]; exact h
  · rw [h]
    have hrr := rootHead_rootHead name
    exact (erc_eq_rootHead (rootHead name) (by rw [hrr]; exact h1)
      (by rw [hrr]; exact h2) (by rw [hrr]; exact h3)
      (by rw [hrr]; exact h4)).trans hrr

/-! ### Helper lemmas about the deriveMajor aggregation loop -/

/-- Membership in the JS-Set deduplication: an element is kept iff it
occurs in the input and was not already seen. -/
theorem mem_dedupFirstGo (x : String) (l : List String) : ∀ seen : List String,
    x ∈ dedupFirstGo seen l ↔ x ∈ l ∧ x ∉ seen := by
  induction l with
  | nil => intro seen; simp [dedupFirstGo]
  | cons y ys ih =>
    intro seen
    by_cases hy : y ∈ seen
    · rw [show dedupFirstGo seen (y :: ys) = dedupFirstGo seen ys from by
        simp [dedupFirstGo, hy]]
      rw [ih]
      constructor
      · rintro ⟨hx, hns⟩
        exact ⟨List.mem_cons_of_mem y hx, hns⟩
      · rintro ⟨hx, hns⟩
        rcases List.mem_cons.1 hx with rfl | hx
        · exact absurd hy hns
        · exact ⟨hx, hns⟩
    · rw [show dedupFirstGo seen (y :: ys) = y :: dedupFirstGo (y :: seen) ys from by
        simp [dedupFirstGo, hy]]
      constructor
      · intro hx
        rcases List.mem_cons.1 hx with rfl | hx
        · exact ⟨List.mem_cons_self x ys, hy⟩
        · rcases (ih (y :: seen)).1 hx with ⟨h1, h2⟩
          simp at h2
          exact ⟨List.mem_cons_of_mem y h1, h2.2⟩
      · rintro ⟨hx, hns⟩
        rcases List.mem_cons.1 hx with rfl | hx
        · exact List.mem_cons_self x _
        · by_cases hxy : x = y
          · subst hxy; exact List.mem_cons_self x _
          · exact List.mem_cons_of_mem y
              ((ih (y :: seen)).2 ⟨hx, by simp [hxy, hns]⟩)

/-- If the deduplicated root list is a singleton, every root equals that
single element. -/
theorem dedupFirst_singleton (l : List String) (r : String)
    (h : dedupFirst l = [r]) : ∀ x ∈ l, x = r := by
  intro x hx
  have hm : x ∈ dedupFirst l := by
    unfold dedupFirst
    exact (mem_dedupFirstGo x l []).2 ⟨hx, by simp⟩
  rw [h] at hm
  simpa using hm

/-- Effect of a `Map.set`-with-accumulate on lookups: the touched key
gains `v`, every other key is unchanged. -/
theorem lookupScore_addToSums (k₀ : String) (v : ℚ) :
    ∀ acc : List (String × ℚ), ∀ k : String,
    lookupScore (addToSums acc k₀ v) k =
      if k = k₀ then lookupScore acc k + v else lookupScore acc k := by
  intro acc
  induction acc with
  | nil =>
    intro k
    by_cases h : k = k₀
    · simp [addToSums, lookupScore, h]
    · have h2 : k₀ ≠ k := fun hh => h hh.symm
      simp [addToSums, lookupScore, h, h2]
  | cons kv rest ih =>
    intro k
    obtain ⟨k₁, v₁⟩ := kv
    by_cases h1 : k₁ = k₀
    · rw [show addToSums ((k₁, v₁) :: rest) k₀ v = (k₁, v₁ + v) :: rest from by
        simp [addToSums, h1]]
      by_cases h2 : k = k₀
      · subst h2; subst h1
        simp [lookupScore, add_assoc]
      · have h3 : k₁ ≠ k := fun hh => h2 (hh ▸ h1)
        simp [lookupScore, h3, h2]
    · rw [show addToSums ((k₁, v₁) :: rest) k₀ v = (k₁, v₁) :: addToSums rest k₀ v from by
        simp [addToSums, h1]]
      by_cases h3 : k₁ = k
      · have h2 : k ≠ k₀ := fun hh => h1 (h3.symm ▸ hh)
        simp [lookupScore, h3, h2]
      · simp [lookupScore, h3, ih k]

/-- A key occurs in the updated map iff it occurs in the old map or is
the touched key. -/
theorem mem_keys_addToSums (k₀ : String) (v : ℚ) :
    ∀ acc : List (String × ℚ), ∀ k : String,
    k ∈ (addToSums acc k₀ v).map Prod.fst ↔ k ∈ acc.map Prod.fst ∨ k = k₀ := by
  intro acc
  induction acc with
  | nil => intro k; simp [addToSums]
  | cons kv rest ih =>
    intro k
    obtain ⟨k₁, v₁⟩ := kv
    by_cases h1 : k₁ = k₀
    · rw [show addToSums ((k₁, v₁) :: rest) k₀ v = (k₁, v₁ + v) :: rest from by
        simp [addToSums, h1]]
      subst h1
      simp
      tauto
    · rw [show addToSums ((k₁, v₁) :: rest) k₀ v = (k₁, v₁) :: addToSums rest k₀ v from by
        simp [addToSums, h1]]
      simp [ih k]
      tauto

/-- `addToSums` preserves key distinctness. -/
theorem nodup_keys_addToSums (k₀ : String) (v : ℚ) :
    ∀ acc : List (String × ℚ),
    (acc.map Prod.fst).Nodup → ((addToSums acc k₀ v).map Prod.fst).Nodup := by
  intro acc
  induction acc with
  | nil => intro _; simp [addToSums]
  | cons kv rest ih =>
    intro hnd
    obtain ⟨k₁, v₁⟩ := kv
    rw [List.map_cons, List.nodup_cons] at hnd
    by_cases h1 : k₁ = k₀
    · rw [show addToSums ((k₁, v₁) :: rest) k₀ v = (k₁, v₁ + v) :: rest from by
        simp [addToSums, h1]]
      rw [List.map_cons, List.nodup_cons]
      exact hnd
    · rw [show addToSums ((k₁, v₁) :: rest) k₀ v = (k₁, v₁) :: addToSums rest k₀ v from by
        simp [addToSums, h1]]
      rw [List.map_cons, List.nodup_cons]
      refine ⟨?_, ih hnd.2⟩
      intro hk
      rcases (mem_keys_addToSums k₀ v rest k₁).1 hk with hm | he
      · exact hnd.1 hm
      · exact h1 he


/-- The sums map built by the loop: looking up any key yields its value
in the accumulator plus the aggregated confidence of the processed
detections. -/
theorem lookupScore_buildSumsGo (dets : List Detection) :
    ∀ (acc : List (String × ℚ)) (k : String),
    lookupScore (buildSumsGo acc dets) k = lookupScore acc k + categoryScore dets k := by
  induction dets with
  | nil => intro acc k; simp [buildSumsGo, categoryScore]
  | cons d rest ih =>
    intro acc k
    rw [show buildSumsGo acc (d :: rest) =
        buildSumsGo (addToSums acc (extractRootCategory d.class_name) d.confidence) rest
      from rfl]
    rw [ih, lookupScore_addToSums]
    by_cases h : k = extractRootCategory d.class_name
    · rw [if_pos h]
      rw [show categoryScore (d :: rest) k =
          (if extractRootCategory d.class_name = k then d.confidence else 0) +
            categoryScore rest k from rfl]
      rw [if_pos h.symm]
      ring
    · rw [if_neg h]
      rw [show categoryScore (d :: rest) k =
          (if extractRootCategory d.class_name = k then d.confidence else 0) +
            categoryScore rest k from rfl]
      rw [if_neg fun hh => h hh.symm]
      ring

/-- The keys of the built sums map are exactly the accumulator keys
together with the normalized roots of the detections. -/
theorem mem_keys_buildSumsGo (dets : List Detection) :
    ∀ (acc : List (String × ℚ)) (k : String),
    k ∈ (buildSumsGo acc dets).map Prod.fst ↔
      k ∈ acc.map Prod.fst ∨ ∃ d ∈ dets, extractRootCategory d.class_name = k := by
  induction dets with
  | nil => intro acc k; simp [buildSumsGo]
  | cons d rest ih =>
    intro acc k
    rw [show buildSumsGo acc (d :: rest) =
        buildSumsGo (addToSums acc (extractRootCategory d.class_name) d.confidence) rest
      from rfl]
    rw [ih, mem_keys_addToSums]
    simp
    constructor
    · rintro ((h | h) | h)
      · exact Or.inl h
      · exact Or.inr (Or.inl h.symm)
      · exact Or.inr (Or.inr h)
    · rintro (h | h | h)
      · exact Or.inl (Or.inl h)
      · exact Or.inl (Or.inr h.symm)
      · exact Or.inr h

/-- The built sums map has pairwise-distinct keys (it is a JS `Map`). -/
theorem nodup_keys_buildSumsGo (dets : List Detection) :
    ∀ acc : List (String × ℚ),
    (acc.map Prod.fst).Nodup → ((buildSumsGo acc dets).map Prod.fst).Nodup := by
  induction dets with
  | nil => intro acc h; simpa [buildSumsGo] using h
  | cons d rest ih =>
    intro acc h
    exact ih _ (nodup_keys_addToSums _ _ acc h)

/-- In a map with distinct keys, a member pair's value is what lookup
returns for its key. -/
theorem lookupScore_of_mem :
    ∀ acc : List (String × ℚ), (acc.map Prod.fst).Nodup →
    ∀ (k : String) (v₀ : ℚ), (k, v₀) ∈ acc → lookupScore acc k = v₀ := by
  intro acc
  induction acc with
  | nil => intro _ k v₀ h; simp at h
  | cons kv rest ih =>
    intro hnd k v₀ hm
    obtain ⟨k₁, v₁⟩ := kv
    rw [List.map_cons, List.nodup_cons] at hnd
    rcases List.mem_cons.1 hm with he | hm
    · obtain ⟨rfl, rfl⟩ := Prod.mk.injEq .. ▸ he
      injection he with he1 he2
      simp [lookupScore]
    · by_cases h1 : k₁ = k
      · exfalso
        apply hnd.1
        subst h1
        exact List.mem_map.2 ⟨(k₁, v₀), hm, rfl⟩
      · rw [show lookupScore ((k₁, v₁) :: rest) k = lookupScore rest k from by
          simp [lookupScore, h1]]
        exact ih hnd.2 k v₀ hm

/-- Every key of a map occurs paired with its lookup value. -/
theorem mem_of_mem_keys :
    ∀ acc : List (String × ℚ), ∀ k : String,
    k ∈ acc.map Prod.fst → (k, lookupScore acc k) ∈ acc := by
  intro acc
  induction acc with
  | nil => intro k h; simp at h
  | cons kv rest ih =>
    intro k hm
    obtain ⟨k₁, v₁⟩ := kv
    by_cases h1 : k₁ = k
    · subst h1
      rw [show lookupScore ((k₁, v₁) :: rest) k₁ = v₁ from by simp [lookupScore]]
      exact List.mem_cons_self _ _
    · rw [show lookupScore ((k₁, v₁) :: rest) k = lookupScore rest k from by
        simp [lookupScore, h1]]
      have hm2 : k ∈ rest.map Prod.fst := by
        rw [List.map_cons] at hm
        rcases List.mem_cons.1 hm with he | hmm
        · exact absurd he.symm h1
        · exact hmm
      exact List.mem_cons_of_mem _ (ih k hm2)

/-- Specification of the best-entry loop: the result is the initial
accumulator or one of the scanned entries, its score never drops below
the initial score, and it dominates every scanned entry's score. -/
theorem pickBestGo_spec (l : List (String × ℚ)) :
    ∀ (b : Option String) (s : ℚ),
    (pickBestGo (b, s) l = (b, s) ∨
      ∃ kv ∈ l, pickBestGo (b, s) l = (some kv.1, kv.2)) ∧
    s ≤ (pickBestGo (b, s) l).2 ∧
    ∀ kv ∈ l, kv.2 ≤ (pickBestGo (b, s) l).2 := by
  induction l with
  | nil =>
    intro b s
    refine ⟨Or.inl rfl, ?_, ?_⟩ <;> simp [pickBestGo]
  | cons kv₀ rest ih =>
    intro b s
    by_cases h : kv₀.2 > s
    · rw [show pickBestGo (b, s) (kv₀ :: rest) = pickBestGo (some kv₀.1, kv₀.2) rest from by
        simp [pickBestGo, h]]
      obtain ⟨h1, h2, h3⟩ := ih (some kv₀.1) kv₀.2
      refine ⟨?_, ?_, ?_⟩
      · rcases h1 with he | ⟨kv, hm, he⟩
        · exact Or.inr ⟨kv₀, List.mem_cons_self _ _, by rw [he]⟩
        · exact Or.inr ⟨kv, List.mem_cons_of_mem _ hm, he⟩
      · exact le_trans (le_of_lt h) h2
      · intro kv hm
        rcases List.mem_cons.1 hm with rfl | hm
        · exact h2
        · exact h3 kv hm
    · rw [show pickBestGo (b, s) (kv₀ :: rest) = pickBestGo (b, s) rest from by
        simp [pickBestGo, h]]
      obtain ⟨h1, h2, h3⟩ := ih b s
      refine ⟨?_, h2, ?_⟩
      · rcases h1 with he | ⟨kv, hm, he⟩
        · exact Or.inl he
        · exact Or.inr ⟨kv, List.mem_cons_of_mem _ hm, he⟩
      · intro kv hm
        rcases List.mem_cons.1 hm with rfl | hm
        · exact le_trans (not_lt.1 h) h2
        · exact h3 kv hm

/-- Aggregated category confidences are non-negative when all detection
confidences are. -/
theorem categoryScore_nonneg (dets : List Detection)
    (h : ∀ d ∈ dets, 0 ≤ d.confidence) (c : String) :
    0 ≤ categoryScore dets c := by
  induction dets with
  | nil => simp [categoryScore]
  | cons d rest ih =>
    rw [show categoryScore (d :: rest) c =
        (if extractRootCategory d.class_name = c then d.confidence else 0) +
          categoryScore rest c from rfl]
    have h1 : 0 ≤ d.confidence := h d (List.mem_cons_self _ _)
    have h2 : 0 ≤ categoryScore rest c :=
      ih fun x hx => h x (List.mem_cons_of_mem _ hx)
    by_cases hc : extractRootCategory d.class_name = c
    · rw [if_pos hc]; linarith
    · rw [if_neg hc]; linarith

/-- Unfolding of `deriveMajor` on a non-empty list. -/
theorem deriveMajor_cons (d₀ : Detection) (rest : List Detection) :
    deriveMajor (d₀ :: rest) =
      if (dedupFirst ((d₀ :: rest).map fun d => extractRootCategory d.class_name)).length = 1
      then (dedupFirst ((d₀ :: rest).map fun d => extractRootCategory d.class_name)).head?
      else (pickBest (buildSums (d₀ :: rest))).1 := rfl

/-! ### Claim theorems: the major-category selection (C3) -/

/-- C3 counterexample: two detections with exactly equal aggregated
scores, one in other-waste (其他垃圾) and one in hazardous-waste
(有害垃圾).  The fixed priority order of the claim
(recyclable > hazardous-waste > kitchen-waste > other-waste) would
select 有害垃圾 regardless of input order; the code instead selects
whichever category's first observation appears earliest in the list, so
the two input orders give two different results — the tie-break is Map
insertion order, not the fixed priority, and it is not
order-independent. -/
theorem c3_tiebreak_counterexample :
    deriveMajor [⟨0, "其他垃圾-纸巾", 1/2, []⟩, ⟨1, "有害垃圾-电池", 1/2, []⟩]
        = some "其他垃圾" ∧
    deriveMajor [⟨1, "有害垃圾-电池", 1/2, []⟩, ⟨0, "其他垃圾-纸巾", 1/2, []⟩]
        = some "有害垃圾" ∧
    ("其他垃圾" : String) ≠ "有害垃圾" := by
  refine ⟨?_, ?_, by decide⟩ <;>
    norm_num [deriveMajor, dedupFirst, dedupFirstGo, buildSums, buildSumsGo, addToSums,
      pickBest, pickBestGo, ercOtherTissue, ercHazardBattery]

/-- C3 (amended): for every non-empty detection list with non-negative
confidences, `deriveMajor` returns some category whose aggregated score
is greatest (no other observed category scores strictly higher).  When
two categories tie for the top score the winner is the tied category
whose observations enter the sums map first (insertion order), so the
result depends on the order of the input list — not on the fixed
priority order recyclable > hazardous-waste > kitchen-waste >
other-waste claimed by the spec. -/
theorem c3_deriveMajor_argmax (dets : List Detection) (hne : dets ≠ [])
    (hconf : ∀ d ∈ dets, 0 ≤ d.confidence) :
    ∃ c, deriveMajor dets = some c ∧
      ∀ d ∈ dets,
        categoryScore dets (extractRootCategory d.class_name) ≤ categoryScore dets c := by
  obtain ⟨d₀, rest, rfl⟩ : ∃ d₀ rest, dets = d₀ :: rest := by
    cases dets with
    | nil => exact absurd rfl hne
    | cons d₀ rest => exact ⟨d₀, rest, rfl⟩
  rw [deriveMajor_cons]
  by_cases hu :
      (dedupFirst ((d₀ :: rest).map fun d => extractRootCategory d.class_name)).length = 1
  · rw [if_pos hu]
    obtain ⟨r, hr⟩ := List.length_eq_one.1 hu
    refine ⟨r, by rw [hr]; rfl, ?_⟩
    intro d hd
    have hall := dedupFirst_singleton _ r hr
    have : extractRootCategory d.class_name = r :=
      hall _ (List.mem_map.2 ⟨d, hd, rfl⟩)
    rw [this]
  · rw [if_neg hu]
    have hlk : ∀ k, lookupScore (buildSums (d₀ :: rest)) k = categoryScore (d₀ :: rest) k := by
      intro k
      unfold buildSums
      rw [lookupScore_buildSumsGo]
      simp [lookupScore]
    have hkeys : ∀ k, k ∈ (buildSums (d₀ :: rest)).map Prod.fst ↔
        ∃ d ∈ d₀ :: rest, extractRootCategory d.class_name = k := by
      intro k
      unfold buildSums
      rw [mem_keys_buildSumsGo]
      simp
    have hnd : ((buildSums (d₀ :: rest)).map Prod.fst).Nodup := by
      unfold buildSums
      exact nodup_keys_buildSumsGo _ [] (by simp)
    obtain ⟨h1, h2, h3⟩ := pickBestGo_spec (buildSums (d₀ :: rest)) none (-1)
    have hmem0 : (extractRootCategory d₀.class_name,
        lookupScore (buildSums (d₀ :: rest)) (extractRootCategory d₀.class_name))
          ∈ buildSums (d₀ :: rest) :=
      mem_of_mem_keys _ _ ((hkeys _).2 ⟨d₀, List.mem_cons_self _ _, rfl⟩)
    rcases h1 with he | ⟨kv, hm, he⟩
    · exfalso
      have hle := h3 _ hmem0
      rw [he] at hle
      have hge : 0 ≤ lookupScore (buildSums (d₀ :: rest)) (extractRootCategory d₀.class_name) := by
        rw [hlk]
        exact categoryScore_nonneg _ hconf _
      simp at hle
      linarith
    · refine ⟨kv.1, by rw [show pickBest (buildSums (d₀ :: rest)) =
          pickBestGo (none, -1) (buildSums (d₀ :: rest)) from rfl, he], ?_⟩
      intro d hd
      have hkv : kv.2 = categoryScore (d₀ :: rest) kv.1 := by
        rw [← hlk]
        exact (lookupScore_of_mem _ hnd kv.1 kv.2 (by simpa using hm)).symm
      have hmemd : (extractRootCategory d.class_name,
          lookupScore (buildSums (d₀ :: rest)) (extractRootCategory d.class_name))
            ∈ buildSums (d₀ :: rest) :=
        mem_of_mem_keys _ _ ((hkeys _).2 ⟨d, hd, rfl⟩)
      have hled := h3 _ hmemd
      rw [he] at hled
      simp at hled
      rw [hlk] at hled
      rw [← hkv]
      exact hled

/-- C3 witness: the amended theorem applied to a concrete two-detection
list — `deriveMajor` returns a category of maximal aggregated score. -/
theorem c3_deriveMajor_argmax_witness :
    ∃ c, deriveMajor [⟨0, "厨余垃圾-香蕉", 2/5, []⟩, ⟨1, "可回收物-瓶子", 7/10, []⟩]
        = some c ∧
      ∀ d ∈ [Detection.mk 0 "厨余垃圾-香蕉" (2/5) [], Detection.mk 1 "可回收物-瓶子" (7/10) []],
        categoryScore [⟨0, "厨余垃圾-香蕉", 2/5, []⟩, ⟨1, "可回收物-瓶子", 7/10, []⟩]
            (extractRootCategory d.class_name) ≤
          categoryScore [⟨0, "厨余垃圾-香蕉", 2/5, []⟩, ⟨1, "可回收物-瓶子", 7/10, []⟩] c :=
  c3_deriveMajor_argmax _ (by simp) (by norm_num)

/-! ### Claim theorems: aggregation examples (C4, C5) -/

/-- The item names 瓶子 and 纸巾 are not category keys (used to reduce
the string comparisons in the C4 computation). -/
theorem itemLabelsNe :
    ("瓶子" : String) ≠ "可回收物" ∧ ("瓶子" : String) ≠ "有害垃圾" ∧
    ("瓶子" : String) ≠ "厨余垃圾" ∧ ("瓶子" : String) ≠ "其他垃圾" ∧
    ("纸巾" : String) ≠ "可回收物" ∧ ("纸巾" : String) ≠ "有害垃圾" ∧
    ("纸巾" : String) ≠ "厨余垃圾" ∧ ("纸巾" : String) ≠ "其他垃圾" := by decide

/-- C4 counterexample: with the claim's item-first labels 瓶子-可回收物
and 纸巾-其他垃圾 the normalizer takes the first dash segment, yielding
the fine-grained item names 瓶子 and 纸巾 rather than macro-categories:
all four canonical buckets stay 0 (not 0.9/0.3 as claimed), and the
frontend fallback selects 瓶子, not 可回收物. -/
theorem c4_labels_counterexample :
    (aggregateSumAll 0 [("瓶子-可回收物", 9/10), ("纸巾-其他垃圾", 3/10)]).scoresByCategory
        = [("可回收物", 0), ("有害垃圾", 0), ("厨余垃圾", 0), ("其他垃圾", 0)] ∧
    (aggregateSumAll 0 [("瓶子-可回收物", 9/10), ("纸巾-其他垃圾", 3/10)]).scoresByCategory
        ≠ [("可回收物", 9/10), ("有害垃圾", 0), ("厨余垃圾", 0), ("其他垃圾", 3/10)] ∧
    deriveMajor [⟨0, "瓶子-可回收物", 9/10, []⟩, ⟨1, "纸巾-其他垃圾", 3/10, []⟩]
        = some "瓶子" := by
  refine ⟨?_, ?_, ?_⟩
  · norm_num [aggregateSumAll, filterMinProb, obsScore, pickBestGo, canonicalCategories,
      ercBottleFirst, ercTissueFirst, itemLabelsNe]
  · norm_num [aggregateSumAll, filterMinProb, obsScore, pickBestGo, canonicalCategories,
      ercBottleFirst, ercTissueFirst, itemLabelsNe]
  · norm_num [deriveMajor, dedupFirst, dedupFirstGo, buildSums, buildSumsGo, addToSums,
      pickBest, pickBestGo, ercBottleFirst, ercTissueFirst]

/-- C4 (amended): with the repository's category-first label format
(可回收物-瓶子, 其他垃圾-纸巾 — the macro-category precedes the dash,
as in the backend README examples), sum-all aggregation with no
filtering yields exactly the claimed result: scores
{可回收物: 0.9, 其他垃圾: 0.3, 厨余垃圾: 0, 有害垃圾: 0}, major
category 可回收物, isRecyclable true; the frontend fallback
`deriveMajor` agrees on the major category. -/
theorem c4_sum_all_example :
    aggregateSumAll 0 [("可回收物-瓶子", 9/10), ("其他垃圾-纸巾", 3/10)] =
      { scoresByCategory :=
          [("可回收物", 9/10), ("有害垃圾", 0), ("厨余垃圾", 0), ("其他垃圾", 3/10)]
        majorCategory := some "可回收物"
        isRecyclable := true } ∧
    deriveMajor [⟨0, "可回收物-瓶子", 9/10, []⟩, ⟨1, "其他垃圾-纸巾", 3/10, []⟩]
        = some "可回收物" := by
  constructor
  · norm_num [aggregateSumAll, filterMinProb, obsScore, pickBestGo, canonicalCategories,
      ercRecyclableBottle, ercOtherTissue, categoriesPairwiseNe]
  · norm_num [deriveMajor, dedupFirst, dedupFirstGo, buildSums, buildSumsGo, addToSums,
      pickBest, pickBestGo, ercRecyclableBottle, ercOtherTissue]

/-- C5 (confirmed): aggregating an empty observation list is not an
error — the major category is null, every one of the four categories
scores 0, and isRecyclable is false; the frontend fallback likewise
returns null on an empty detection list. -/
theorem c5_empty_aggregation :
    aggregateSumAll 0 [] =
      { scoresByCategory :=
          [("可回收物", 0), ("有害垃圾", 0), ("厨余垃圾", 0), ("其他垃圾", 0)]
        majorCategory := none
        isRecyclable := false } ∧
    deriveMajor [] = none := by
  constructor
  · norm_num [aggregateSumAll, filterMinProb, obsScore, pickBestGo, canonicalCategories]
  · decide

/-! ### Claim theorems: the coordinate pipeline (C6, C7, C8, C9) -/

/-- JS `Math.round` lands within half a unit of its argument. -/
theorem abs_jsRound_sub_le (x : ℚ) : |(jsRound x : ℚ) - x| ≤ 1/2 := by
  have h1 := Int.floor_le (x + 1/2)
  have h2 := Int.lt_floor_add_one (x + 1/2)
  unfold jsRound
  rw [abs_le]
  constructor <;> linarith

/-- C6 counterexample: a 3×5 source image resized to target width 2 has
ratio 2/3, canvas 2×3, and the per-axis box scales actually applied are
scaleX = 2/3 but scaleY = 3/5 — two different factors, so the claimed
single uniform scale applied identically to x and y is false and boxes
are (slightly) aspect-distorted. -/
theorem c6_nonuniform_counterexample :
    scaleX 3 5 2 = 2/3 ∧ scaleY 3 5 2 = 3/5 ∧ (2/3 : ℚ) ≠ 3/5 := by
  norm_num [scaleX, scaleY, resizeImageCanvas, resizeRatio, jsRound, Int.floor_eq_iff]

/-- C6 (amended): the resize ratio is computed once as
`min(1, targetWidth / sourceWidth)` and applied to both dimensions, but
the per-axis box scales are re-derived from the rounded canvas
dimensions (`tmp.width / naturalWidth`, `tmp.height / naturalHeight`),
so each axis scale may deviate from the uniform ratio by up to half a
pixel per source dimension — within 1/(2W) on x and 1/(2H) on y —
rather than being exactly identical. -/
theorem c6_scale_bounds (W H maxW : ℚ) (hW : 0 < W) (hH : 0 < H) :
    |scaleX W H maxW - resizeRatio maxW W| ≤ 1 / (2 * W) ∧
    |scaleY W H maxW - resizeRatio maxW W| ≤ 1 / (2 * H) := by
  constructor
  · have key : scaleX W H maxW - resizeRatio maxW W =
        ((jsRound (W * resizeRatio maxW W) : ℚ) - W * resizeRatio maxW W) / W := by
      field_simp [scaleX, resizeImageCanvas]
    rw [key, abs_div, abs_of_pos hW]
    rw [show (1 : ℚ) / (2 * W) = (1 / 2) / W from by rw [div_div]]
    exact (div_le_div_right hW).2 (abs_jsRound_sub_le _)
  · have key : scaleY W H maxW - resizeRatio maxW W =
        ((jsRound (H * resizeRatio maxW W) : ℚ) - H * resizeRatio maxW W) / H := by
      field_simp [scaleY, resizeImageCanvas]
    rw [key, abs_div, abs_of_pos hH]
    rw [show (1 : ℚ) / (2 * H) = (1 / 2) / H from by rw [div_div]]
    exact (div_le_div_right hH).2 (abs_jsRound_sub_le _)

/-- C6 witness: the bound instantiated at the 3×5 image with target
width 2. -/
theorem c6_scale_bounds_witness :
    (0 : ℚ) < 3 ∧ (0 : ℚ) < 5 ∧
    (|scaleX 3 5 2 - resizeRatio 2 3| ≤ 1 / (2 * 3) ∧
      |scaleY 3 5 2 - resizeRatio 2 3| ≤ 1 / (2 * 5)) :=
  ⟨by norm_num, by norm_num, c6_scale_bounds 3 5 2 (by norm_num) (by norm_num)⟩

/-- C7 counterexample: at sourceToDisplay = 1/2 and devicePixelRatio = 3
the source coordinate 1 maps to display `round(0.5) = 1`, device pixel 3,
and the inverse recovers 2 — an error of one source pixel, which is 1.5
device pixels, exceeding the claimed one-device-pixel bound.  (Rounding
happens at the display stage, so the device-space error is dpr/2.) -/
theorem c7_roundtrip_counterexample :
    ¬(|fromDeviceCoord (1/2) 3 (toDeviceCoord (1/2) 3 1) - 1| * ((1/2) * 3) ≤ 1) := by
  norm_num [fromDeviceCoord, toDeviceCoord, toDisplayCoord, jsRound, Int.floor_eq_iff]

/-- C7 (amended): for every source coordinate, every sourceToDisplay
scale in (0, 1] and every positive devicePixelRatio, the forward
transform followed by the exact inverse recovers the coordinate to
within half a display pixel — that is, within dpr/2 device pixels
(so within one device pixel only when dpr ≤ 2; at dpr = 3 the error
reaches 1.5 device pixels). -/
theorem c7_roundtrip_bound (x s dpr : ℚ) (hs : 0 < s) (hs1 : s ≤ 1) (hd : 0 < dpr) :
    |fromDeviceCoord s dpr (toDeviceCoord s dpr x) - x| * (s * dpr) ≤ dpr / 2 := by
  have key : fromDeviceCoord s dpr (toDeviceCoord s dpr x) - x =
      ((jsRound (x * s) : ℚ) - x * s) / s := by
    field_simp [fromDeviceCoord, toDeviceCoord, toDisplayCoord]
    ring
  rw [key, abs_div, abs_of_pos hs]
  have habs := abs_jsRound_sub_le (x * s)
  have hrw : |(jsRound (x * s) : ℚ) - x * s| / s * (s * dpr) =
      |(jsRound (x * s) : ℚ) - x * s| * dpr := by
    field_simp
    ring
  rw [hrw]
  calc |(jsRound (x * s) : ℚ) - x * s| * dpr ≤ (1 / 2) * dpr :=
        mul_le_mul_of_nonneg_right habs (le_of_lt hd)
    _ = dpr / 2 := by ring

/-- C7 witness: the bound instantiated at coordinate 1, scale 1/2,
devicePixelRatio 3 (where the error is exactly 1.5 device pixels). -/
theorem c7_roundtrip_bound_witness :
    (0 : ℚ) < 1/2 ∧ (1/2 : ℚ) ≤ 1 ∧ (0 : ℚ) < 3 ∧
    |fromDeviceCoord (1/2) 3 (toDeviceCoord (1/2) 3 1) - 1| * ((1/2) * 3) ≤ 3 / 2 :=
  ⟨by norm_num, by norm_num, by norm_num,
    c7_roundtrip_bound 1 (1/2) 3 (by norm_num) (by norm_num) (by norm_num)⟩

/-- C8 counterexample: a zero-width source image is not rejected — there
is no `InvalidImageError` anywhere in the code; `resizeImageCanvas` is
total and simply proceeds, producing a degenerate 0-wide canvas (the
IEEE quotient `640 / 0 = +∞` is clamped to ratio 1 by `Math.min`), here
(0, 480) for a 0×480 input at target width 640. -/
theorem c8_zero_width_counterexample :
    resizeImageCanvas 0 480 640 = (0, 480) := by
  norm_num [resizeImageCanvas, resizeRatio, jsRound, Int.floor_eq_iff]

/-- C8 (amended): a source image of width 0 is not rejected and no
division-by-zero fault occurs: for any target width ≥ 1 (as all call
sites guarantee), the ratio clamps to 1 and the function returns a
canvas of width 0 and the rounded original height. -/
theorem c8_zero_width_proceeds (H maxW : ℚ) (hmax : 1 ≤ maxW) :
    resizeImageCanvas 0 H maxW = (0, jsRound H) := by
  simp [resizeImageCanvas, resizeRatio, jsRound]
  norm_num

/-- C8 witness: the amended behaviour at a concrete 0×480 image with
target width 640. -/
theorem c8_zero_width_proceeds_witness :
    (1 : ℚ) ≤ 640 ∧ resizeImageCanvas 0 480 640 = (0, jsRound 480) :=
  ⟨by norm_num, c8_zero_width_proceeds 480 640 (by norm_num)⟩

/-- C9 counterexample: on a 640×480 backing store at devicePixelRatio 1
the code sets stroke width max(2, round(480 / (1·200))) = 2, whereas
the claimed formula — the smaller surface dimension divided by the
device pixel ratio, floored (and clamped below at 2) — would give 480. -/
theorem c9_stroke_width_counterexample :
    strokeLineWidth 640 480 1 = 2 ∧
    max 2 (⌊(min (640 : ℚ) 480) / 1⌋ : ℤ) = 480 ∧ (2 : ℤ) ≠ 480 := by
  refine ⟨?_, by norm_num, by decide⟩
  norm_num [strokeLineWidth, jsRound, Int.floor_eq_iff]

/-- C9 (amended): the stroke width is
max(2, round(min(surfaceWidth, surfaceHeight) / (devicePixelRatio·200)))
— the smaller surface dimension divided by 200 times the device pixel
ratio, rounded to nearest (not floored), and bounded below by 2, so it
is always at least 2 whatever the surface size. -/
theorem c9_stroke_width_formula (surfW surfH : ℤ) (dpr : ℚ) :
    2 ≤ strokeLineWidth surfW surfH dpr ∧
    strokeLineWidth surfW surfH dpr =
      max 2 (jsRound (((min surfW surfH : ℤ) : ℚ) / (dpr * 200))) :=
  ⟨le_max_left _ _, rfl⟩
